import Mathlib

/-!
# Verification of the imgal weighted rank-correlation engine

This file gives a shallow embedding of the statistics core of the imgal
repository (the weighted bottom-up merge sort with inversion counting, the
weighted Kendall Tau-b correlation, and the effective-sample-size reducer),
together with its Python binding surface
(`imgal_python/src/functions/statistics_functions.rs`), and proves or refutes
the specified properties.

The Rust core (`imgal::statistics`) is not part of the provided sources; only
its binding layer is.  Where a definition embeds that missing core it is
modelled from the specification, and its doc comment says so explicitly.
Floating point `f64` arithmetic is idealised as exact rational arithmetic
(`ℚ`); rational division by zero is `0` (the exact-arithmetic stand-in for the
IEEE `NaN` that `f64` would produce).
-/

set_option maxHeartbeats 1000000
set_option linter.unusedSectionVars false

namespace ImgalSpec

section WMS

variable {P : Type} {κ : Type} [LinearOrder κ]

/-- Sum of `f p q` over all ordered index pairs `i < j` of the list
(`p` the earlier element, `q` the later one).  This is the direct `O(n²)`
pairwise accumulation used as the reference semantics for the weighted
inversion count and the Tau-b pair masses. -/
def pairSum (f : P → P → ℚ) : List P → ℚ
  | [] => 0
  | p :: t => ((t.map (f p)).sum) + pairSum f t

/-- Sum of `f p q` over all pairs with `p` drawn from `l` and `q` from `r`. -/
def crossSum (f : P → P → ℚ) (l r : List P) : ℚ :=
  ((l.map fun p => ((r.map (f p)).sum)).sum)

/-- Weighted-inversion summand: an (earlier, later) pair contributes the
product of its weights when the later key is strictly below the earlier key,
and nothing otherwise (ties are not inversions). -/
def invf (key : P → κ) (wt : P → ℚ) : P → P → ℚ :=
  fun p q => if key q < key p then wt p * wt q else 0

/-- Reference weighted inversion count of a list: the direct `O(n²)`
computation `Σ_{i<j, key lᵢ > key lⱼ} wt lᵢ * wt lⱼ`. -/
def refInv (key : P → κ) (wt : P → ℚ) (l : List P) : ℚ :=
  pairSum (invf key wt) l

/-- Modelled from the spec: the two-pointer merge step of `WeightedMergeSort`
(§4.2), whose Rust source (`imgal::statistics::weighted_merge_sort_mut`) is
not in the provided sources.  Merges two runs, emitting the left element on
ties; whenever a right-run element is emitted while left-run elements are
still pending, it adds the products of the pending left weights with the
emitted right weight to the inversion count.  `fuel` is a structural
recursion bound (callers pass the combined length). -/
def mergeF (key : P → κ) (wt : P → ℚ) : Nat → List P → List P → List P × ℚ
  | 0, l, r => (l ++ r, 0)
  | _ + 1, [], r => (r, 0)
  | _ + 1, p :: l, [] => (p :: l, 0)
  | fuel + 1, p :: l, q :: r =>
    if key q < key p then
      let m := mergeF key wt fuel (p :: l) r
      (q :: m.1, m.2 + (((p :: l).map wt).sum) * wt q)
    else
      let m := mergeF key wt fuel l (q :: r)
      (p :: m.1, m.2)

/-- The merge step at its natural fuel. -/
def mergeCnt (key : P → κ) (wt : P → ℚ) (l r : List P) : List P × ℚ :=
  mergeF key wt (l.length + r.length) l r

/-- Modelled from the spec: one width-`width` pass of the bottom-up merge
sort (§4.2): merge each adjacent pair of width-`width` runs, accumulating the
inversion count.  `fuel` bounds the recursion (callers pass the length). -/
def passF (key : P → κ) (wt : P → ℚ) : Nat → Nat → List P → List P × ℚ
  | 0, _, l => (l, 0)
  | fuel + 1, width, l =>
    if l.length ≤ width then (l, 0)
    else
      let m := mergeCnt key wt (l.take width) ((l.drop width).take width)
      let rest := passF key wt fuel width (l.drop (2 * width))
      (m.1 ++ rest.1, m.2 + rest.2)

/-- Modelled from the spec: the doubling-width driver loop of the bottom-up
merge sort (§4.2).  Runs passes of width `width`, `2·width`, `4·width`, …
until a single sorted run remains, summing the per-pass inversion counts. -/
def loopF (key : P → κ) (wt : P → ℚ) : Nat → Nat → List P → List P × ℚ
  | 0, _, l => (l, 0)
  | fuel + 1, width, l =>
    if l.length ≤ width then (l, 0)
    else
      let pa := passF key wt l.length width l
      let rest := loopF key wt fuel (2 * width) pa.1
      (rest.1, pa.2 + rest.2)

/-- Modelled from the spec: `WeightedMergeSort` on a list of records carrying
a sort key and a weight (§4.2, §9: value and weight move as one logical
unit).  Returns the sorted list and the weighted inversion count. -/
def wmSort (key : P → κ) (wt : P → ℚ) (l : List P) : List P × ℚ :=
  loopF key wt l.length 1 l

/-- Sortedness of a list with respect to a sort key (non-strict, ascending). -/
def SortedK (key : P → κ) (l : List P) : Prop :=
  l.Pairwise fun p q => key p ≤ key q

/-- The elements of `l` whose key is exactly `k`, in list order; the
stability contract says the sort preserves these sublists verbatim. -/
def filterK [DecidableEq κ] (key : P → κ) (k : κ) (l : List P) : List P :=
  l.filter fun p => decide (key p = k)

/-- Chunk-sortedness invariant of the bottom-up sort: every aligned chunk of
`width` consecutive elements is sorted. -/
def chunkSorted (key : P → κ) (width : Nat) (l : List P) : Prop :=
  ∀ i : Nat, SortedK key ((l.drop (i * width)).take width)

end WMS

section TieTerm

variable {P : Type} {κ : Type} [DecidableEq κ]

/-- Modelled from the spec: the weight of the leading run of elements of
`l` whose key equals `k` (stops at the first element of a different key). -/
def runSum (key : P → κ) (wt : P → ℚ) (k : κ) : List P → ℚ
  | [] => 0
  | p :: t => if key p = k then wt p + runSum key wt k t else 0

/-- Modelled from the spec: the tie-correction term of §4.3 steps 5–6, whose
Rust source is not in the provided sources.  Groups the list into maximal
runs of equal key; a run of total weight `Gw` and weight-of-squares `Gw2`
contributes `Gw² − Gw2` (accumulated here as `Σᵢ 2·wᵢ·(weight of the rest of
the run after i)`, which telescopes to the same value). -/
def tieTerm (key : P → κ) (wt : P → ℚ) : List P → ℚ
  | [] => 0
  | p :: t => 2 * wt p * runSum key wt (key p) t + tieTerm key wt t

end TieTerm

namespace statistics

/-- Error kinds of the statistics core (spec §7). -/
inductive Err
  | LengthMismatch
  | DegenerateInput
deriving DecidableEq, Repr

/-- Modelled from the spec: `imgal::statistics::sum` (§4.1), the arithmetic
sum of a sequence; the empty sequence yields `0`. -/
def sum (data : List ℚ) : ℚ := data.sum

/-- Modelled from the spec: `imgal::statistics::effective_sample_size`
(§4.1): `(Σ wᵢ)² / Σ wᵢ²`.  The binding surface in
`statistics_functions.rs` returns a bare `f64` (no error channel), so the
core is total; with all-zero weights the division by zero yields the exact
arithmetic sentinel `0` (IEEE `NaN` in `f64`). -/
def effective_sample_size (weights : List ℚ) : ℚ :=
  (sum weights) ^ 2 / sum (weights.map fun w => w * w)

/-- Modelled from the spec: `imgal::statistics::weighted_merge_sort_mut`
(§4.2), whose Rust source is not in the provided sources.  The in-place
mutation of the two caller slices is modelled by returning the new contents
of `data` and `weights` together with the weighted inversion count; the
length check precedes any computation, and the error return carries no
array state (no partial mutation is expressible). -/
def weighted_merge_sort_mut {α : Type} [LinearOrder α] (data : List α)
    (weights : List ℚ) : Except Err (List α × List ℚ × ℚ) :=
  if data.length = weights.length then
    let s := wmSort (fun p : α × ℚ => p.1) (fun p => p.2) (data.zip weights)
    .ok (s.1.map Prod.fst, s.1.map Prod.snd, s.2)
  else .error .LengthMismatch

/-- First component (variable `a`) of an `(a, b, w)` observation triple. -/
def trA (p : ℚ × ℚ × ℚ) : ℚ := p.1

/-- Second component (variable `b`) of an `(a, b, w)` observation triple. -/
def trB (p : ℚ × ℚ × ℚ) : ℚ := p.2.1

/-- Weight component of an `(a, b, w)` observation triple. -/
def trW (p : ℚ × ℚ × ℚ) : ℚ := p.2.2

/-- Joint `(a, b)` key of an observation triple, for the joint-tie term. -/
def trAB (p : ℚ × ℚ × ℚ) : ℚ × ℚ := (p.1, p.2.1)

/-- Index-aligned `(aᵢ, bᵢ, wᵢ)` triples (spec §4.3 step 1). -/
def zip3 (a b w : List ℚ) : List (ℚ × ℚ × ℚ) := a.zip (b.zip w)

/-- Step 2 of the Tau-b pipeline (spec §4.3): the `(a, b, w)` triples stably
sorted by `a` alone (the spec names no secondary key). -/
def tauLa (a b w : List ℚ) : List (ℚ × ℚ × ℚ) :=
  (wmSort trA trW (zip3 a b w)).1

/-- Step 3, sorted output: the triples further sorted by `b` (the second,
independent sort pass used for the `b` tie grouping). -/
def tauLab (a b w : List ℚ) : List (ℚ × ℚ × ℚ) :=
  (wmSort trB trW (tauLa a b w)).1

/-- Step 3, count: the weighted discordant-pair mass `D`.  The merge sort
counts each unordered discordant pair once; it is doubled here into the
ordered-pair units of `n₀` (the units §4.3 step 4 prescribes and the
perfect-concordance/discordance properties of §8 require). -/
def tauD (a b w : List ℚ) : ℚ :=
  2 * (wmSort trB trW (tauLa a b w)).2

/-- Step 4: total weighted pair mass `n₀ = (Σ wᵢ)² − Σ wᵢ²`. -/
def tauN0 (w : List ℚ) : ℚ :=
  (sum w) ^ 2 - sum (w.map fun x => x * x)

/-- Step 5: tie correction `n₁` for variable `a`, grouped on the `a`-sorted
triples. -/
def tauN1 (a b w : List ℚ) : ℚ :=
  tieTerm trA trW (tauLa a b w)

/-- Step 6: tie correction `n₂` for variable `b`, grouped on the `b`-sorted
triples. -/
def tauN2 (a b w : List ℚ) : ℚ :=
  tieTerm trB trW (tauLab a b w)

/-- The joint-tie mass `T` of §4.3 step 7, grouped by the joint `(a, b)` key
on the `b`-sorted triples. -/
def tauTj (a b w : List ℚ) : ℚ :=
  tieTerm trAB trW (tauLab a b w)

/-- Step 7 numerator: `C − D` with
`C = n₀ − n₁ − n₂ + T − D` the complementary weighted pair mass. -/
def tauNum (a b w : List ℚ) : ℚ :=
  tauN0 w - tauN1 a b w - tauN2 a b w + tauTj a b w - 2 * tauD a b w

/-- Modelled from the spec: `imgal::statistics::weighted_kendall_tau_b`
(§4.3), whose Rust source is not in the provided sources.  Length check
first (`LengthMismatch`); then the pipeline of steps 2–7 (the named `tau…`
definitions above); degenerate inputs (`n₀ − n₁ ≤ 0` or `n₀ − n₂ ≤ 0`)
fail with `DegenerateInput`.

The Rust function returns the single coefficient
`(C − D) / sqrt((n₀−n₁)·(n₀−n₂))`; since the square root is irrational the
model returns the pair (numerator, squared denominator), which determines
the coefficient exactly: the coefficient is `r.1 / sqrt r.2`. -/
def weighted_kendall_tau_b (a b w : List ℚ) : Except Err (ℚ × ℚ) :=
  if a.length = b.length ∧ a.length = w.length then
    if tauN0 w - tauN1 a b w ≤ 0 ∨ tauN0 w - tauN2 a b w ≤ 0 then
      .error .DegenerateInput
    else .ok (tauNum a b w, (tauN0 w - tauN1 a b w) * (tauN0 w - tauN2 a b w))
  else .error .LengthMismatch

end statistics

namespace binding

open statistics

/-- The dtype-dispatched Python argument of `weighted_merge_sort_mut`
(`data: Bound<PyAny>` in `statistics_functions.rs`): a 1-d `f64` array, a
1-d `i32` array, or an array of any other dtype (carrying its dtype name). -/
inductive PyValue
  | f64Array (data : List ℚ)
  | i32Array (data : List ℤ)
  | unsupported (dtype : String)
deriving DecidableEq

/-- Python-surface errors raised by the binding layer. -/
inductive PyErr
  | typeError (msg : String)
  | arrayError (e : Err)
deriving DecidableEq

/-- The message of the `TypeError` raised on an unsupported dtype
(`statistics_functions.rs` line 109). -/
def unsupportedMsg : String := "Unsupported array dtype."

/-- Embedding of `statistics_weighted_merge_sort_mut`
(`statistics_functions.rs` lines 88–112).  The caller-visible array state is
threaded explicitly: the result is the returned `PyResult` together with the
final contents of the `data` and `weights` arrays.  The `f64` and `i32`
extractions are tried in order; any other dtype raises a `TypeError` without
calling the core, leaving both arrays untouched. -/
def statistics_weighted_merge_sort_mut (data : PyValue) (weights : List ℚ) :
    Except PyErr ℚ × PyValue × List ℚ :=
  match data with
  | .f64Array d =>
    match weighted_merge_sort_mut d weights with
    | .ok (d2, w2, c) => (.ok c, .f64Array d2, w2)
    | .error e => (.error (.arrayError e), .f64Array d, weights)
  | .i32Array d =>
    match weighted_merge_sort_mut d weights with
    | .ok (d2, w2, c) => (.ok c, .i32Array d2, w2)
    | .error e => (.error (.arrayError e), .i32Array d, weights)
  | .unsupported s =>
    (.error (.typeError unsupportedMsg), .unsupported s, weights)

/-- Embedding of `statistics_weighted_kendall_tau_b`
(`statistics_functions.rs` lines 62–72).  The Rust binding takes all three
sequences as `Vec<f64>` — by value, so the conversion layer hands the core
fresh copies and nothing is written back; the model threads the caller's
array state explicitly and returns it alongside the `PyResult`. -/
def statistics_weighted_kendall_tau_b (a b w : List ℚ) :
    Except PyErr (ℚ × ℚ) × (List ℚ × List ℚ × List ℚ) :=
  (match weighted_kendall_tau_b a b w with
   | .ok r => .ok r
   | .error e => .error (.arrayError e), (a, b, w))

/-- Embedding of `statistics_effective_sample_size`
(`statistics_functions.rs` lines 18–22): a plain `f64`-returning wrapper
around the core reducer — its signature has no error channel at all. -/
def statistics_effective_sample_size (weights : List ℚ) : ℚ :=
  effective_sample_size weights

end binding

/-! ## Summation helpers -/

section SumHelpers

variable {P : Type}

theorem listSumAdd (f g : P → ℚ) (l : List P) :
    (l.map fun x => f x + g x).sum = (l.map f).sum + (l.map g).sum := by
  induction l with
  | nil => simp
  | cons p t ih => simp [ih]; ring

theorem listSumMulLeft (c : ℚ) (f : P → ℚ) (l : List P) :
    (l.map fun x => c * f x).sum = c * (l.map f).sum := by
  induction l with
  | nil => simp
  | cons p t ih => simp [ih]; ring

theorem listSumNonneg (f : P → ℚ) (l : List P) (h : ∀ x ∈ l, 0 ≤ f x) :
    0 ≤ (l.map f).sum := by
  induction l with
  | nil => simp
  | cons p t ih =>
    simp only [List.map_cons, List.sum_cons]
    have h1 : 0 ≤ f p := h p (List.mem_cons_self p t)
    have h2 : 0 ≤ (t.map f).sum := ih fun x hx => h x (List.mem_cons_of_mem p hx)
    linarith

theorem listSumCongr (f g : P → ℚ) (l : List P) (h : ∀ x ∈ l, f x = g x) :
    (l.map f).sum = (l.map g).sum := by
  induction l with
  | nil => simp
  | cons p t ih =>
    simp only [List.map_cons, List.sum_cons]
    rw [h p (List.mem_cons_self p t), ih fun x hx => h x (List.mem_cons_of_mem p hx)]

end SumHelpers

/-! ## pairSum and crossSum algebra -/

section PairSumLemmas

variable {P : Type}

theorem crossSum_nil_left (f : P → P → ℚ) (r : List P) : crossSum f [] r = 0 := rfl

theorem crossSum_cons_left (f : P → P → ℚ) (p : P) (l r : List P) :
    crossSum f (p :: l) r = (r.map (f p)).sum + crossSum f l r := rfl

theorem crossSum_nil_right (f : P → P → ℚ) (l : List P) : crossSum f l [] = 0 := by
  induction l with
  | nil => rfl
  | cons p t ih => simp [crossSum_cons_left, ih]

theorem crossSum_cons_right (f : P → P → ℚ) (q : P) (l r : List P) :
    crossSum f l (q :: r) = (l.map fun p => f p q).sum + crossSum f l r := by
  induction l with
  | nil => simp [crossSum_nil_left]
  | cons p t ih => simp [crossSum_cons_left, ih]; ring

theorem pairSum_nil (f : P → P → ℚ) : pairSum f [] = 0 := rfl

theorem pairSum_cons (f : P → P → ℚ) (p : P) (t : List P) :
    pairSum f (p :: t) = (t.map (f p)).sum + pairSum f t := rfl

theorem pairSum_append (f : P → P → ℚ) (l r : List P) :
    pairSum f (l ++ r) = pairSum f l + pairSum f r + crossSum f l r := by
  induction l with
  | nil => simp [pairSum_nil, crossSum_nil_left]
  | cons p t ih =>
    simp only [List.cons_append, pairSum_cons, List.map_append, List.sum_append,
      crossSum_cons_left, ih]
    ring

theorem crossSum_perm_left (f : P → P → ℚ) {l l' : List P} (h : l.Perm l') (r : List P) :
    crossSum f l r = crossSum f l' r := by
  exact (h.map fun p => ((r.map (f p)).sum)).sum_eq

theorem crossSum_perm_right (f : P → P → ℚ) (l : List P) {r r' : List P} (h : r.Perm r') :
    crossSum f l r = crossSum f l r' := by
  unfold crossSum
  exact listSumCongr _ _ l fun p _ => (h.map (f p)).sum_eq

theorem pairSum_perm (f : P → P → ℚ) (hsym : ∀ p q, f p q = f q p)
    {l l' : List P} (h : l.Perm l') : pairSum f l = pairSum f l' := by
  induction h with
  | nil => rfl
  | cons x h ih => simp only [pairSum_cons, ih, (h.map (f x)).sum_eq]
  | swap x y l =>
    simp only [pairSum_cons, List.map_cons, List.sum_cons, hsym x y]
    ring
  | trans h1 h2 ih1 ih2 => rw [ih1, ih2]

theorem pairSum_congr {f g : P → P → ℚ} {l : List P}
    (h : l.Pairwise fun p q => f p q = g p q) : pairSum f l = pairSum g l := by
  induction l with
  | nil => rfl
  | cons p t ih =>
    rw [List.pairwise_cons] at h
    simp only [pairSum_cons, ih h.2, listSumCongr (f p) (g p) t h.1]

theorem pairSum_zero (l : List P) : pairSum (fun _ _ => (0 : ℚ)) l = 0 := by
  induction l with
  | nil => rfl
  | cons p t ih => simp [pairSum_cons, ih]

theorem pairSum_add (f g : P → P → ℚ) (l : List P) :
    pairSum (fun p q => f p q + g p q) l = pairSum f l + pairSum g l := by
  induction l with
  | nil => simp [pairSum_nil]
  | cons p t ih =>
    simp only [pairSum_cons, ih, listSumAdd (f p) (g p) t]
    ring

theorem pairSum_nonneg (f : P → P → ℚ) (l : List P)
    (h : ∀ p ∈ l, ∀ q ∈ l, 0 ≤ f p q) : 0 ≤ pairSum f l := by
  induction l with
  | nil => simp [pairSum_nil]
  | cons p t ih =>
    simp only [pairSum_cons]
    have h1 : 0 ≤ (t.map (f p)).sum :=
      listSumNonneg _ _ fun q hq =>
        h p (List.mem_cons_self p t) q (List.mem_cons_of_mem p hq)
    have h2 : 0 ≤ pairSum f t :=
      ih fun x hx q hq => h x (List.mem_cons_of_mem p hx) q (List.mem_cons_of_mem p hq)
    linarith

theorem pairSum_wprod (wt : P → ℚ) (l : List P) :
    2 * pairSum (fun p q => wt p * wt q) l =
      ((l.map wt).sum) ^ 2 - (l.map fun p => wt p * wt p).sum := by
  induction l with
  | nil => simp [pairSum_nil]
  | cons p t ih =>
    simp only [pairSum_cons, List.map_cons, List.sum_cons]
    rw [listSumMulLeft (wt p) wt t] at *
    nlinarith [ih]

end PairSumLemmas

/-! ## filterK lemmas -/

section FilterLemmas

variable {P : Type} {κ : Type} [DecidableEq κ]

theorem filterK_cons (key : P → κ) (k : κ) (p : P) (t : List P) :
    filterK key k (p :: t) =
      if key p = k then p :: filterK key k t else filterK key k t := by
  by_cases h : key p = k <;> simp [filterK, List.filter_cons, h]

theorem filterK_eq_nil (key : P → κ) (k : κ) (l : List P)
    (h : ∀ x ∈ l, key x ≠ k) : filterK key k l = [] := by
  induction l with
  | nil => rfl
  | cons p t ih =>
    rw [filterK_cons, if_neg (h p (List.mem_cons_self p t))]
    exact ih fun x hx => h x (List.mem_cons_of_mem p hx)

end FilterLemmas

/-! ## Merge step lemmas -/

section MergeLemmas

variable {P : Type} {κ : Type} [LinearOrder κ]

theorem listSumMulRight (c : ℚ) (f : P → ℚ) (l : List P) :
    (l.map fun x => f x * c).sum = (l.map f).sum * c := by
  induction l with
  | nil => simp
  | cons p t ih => simp [ih]; ring

theorem sortedK_nil (key : P → κ) : SortedK key ([] : List P) := List.Pairwise.nil

theorem sortedK_cons {key : P → κ} {p : P} {t : List P} :
    SortedK key (p :: t) ↔ (∀ q ∈ t, key p ≤ key q) ∧ SortedK key t :=
  List.pairwise_cons

theorem mergeF_perm (key : P → κ) (wt : P → ℚ) :
    ∀ (fuel : Nat) (l r : List P), l.length + r.length ≤ fuel →
      ((mergeF key wt fuel l r).1).Perm (l ++ r)
  | 0, l, r, _ => by simp [mergeF]
  | _ + 1, [], r, _ => by simp [mergeF]
  | _ + 1, p :: l, [], _ => by simp [mergeF]
  | fuel + 1, p :: l, q :: r, h => by
    by_cases hc : key q < key p
    · have ih := mergeF_perm key wt fuel (p :: l) r (by simp at h ⊢; omega)
      simp only [mergeF, if_pos hc]
      exact (ih.cons q).trans List.perm_middle.symm
    · have ih := mergeF_perm key wt fuel l (q :: r) (by simp at h ⊢; omega)
      simp only [mergeF, if_neg hc]
      exact ih.cons p

theorem mergeF_sorted (key : P → κ) (wt : P → ℚ) :
    ∀ (fuel : Nat) (l r : List P), l.length + r.length ≤ fuel →
      SortedK key l → SortedK key r → SortedK key (mergeF key wt fuel l r).1
  | 0, l, r, h, _, _ => by
    have hl : l = [] := List.eq_nil_of_length_eq_zero (by omega)
    have hr : r = [] := List.eq_nil_of_length_eq_zero (by omega)
    subst hl; subst hr
    simp [mergeF, sortedK_nil]
  | _ + 1, [], r, _, _, hr => by simpa [mergeF] using hr
  | _ + 1, p :: l, [], _, hl, _ => by simpa [mergeF] using hl
  | fuel + 1, p :: l, q :: r, h, hl, hr => by
    by_cases hc : key q < key p
    · have hfuel : (p :: l).length + r.length ≤ fuel := by simp at h ⊢; omega
      have ih := mergeF_sorted key wt fuel (p :: l) r hfuel hl
        (sortedK_cons.mp hr).2
      have hperm := mergeF_perm key wt fuel (p :: l) r hfuel
      simp only [mergeF, if_pos hc]
      refine sortedK_cons.mpr ⟨fun x hx => ?_, ih⟩
      rcases (List.mem_append).mp (hperm.mem_iff.mp hx) with hx1 | hx2
      · rcases List.mem_cons.mp hx1 with rfl | hx1
        · exact le_of_lt hc
        · exact le_of_lt (lt_of_lt_of_le hc ((sortedK_cons.mp hl).1 x hx1))
      · exact (sortedK_cons.mp hr).1 x hx2
    · have hle : key p ≤ key q := le_of_not_lt hc
      have hfuel : l.length + (q :: r).length ≤ fuel := by simp at h ⊢; omega
      have ih := mergeF_sorted key wt fuel l (q :: r) hfuel
        (sortedK_cons.mp hl).2 hr
      have hperm := mergeF_perm key wt fuel l (q :: r) hfuel
      simp only [mergeF, if_neg hc]
      refine sortedK_cons.mpr ⟨fun x hx => ?_, ih⟩
      rcases (List.mem_append).mp (hperm.mem_iff.mp hx) with hx1 | hx2
      · exact (sortedK_cons.mp hl).1 x hx1
      · rcases List.mem_cons.mp hx2 with rfl | hx2
        · exact hle
        · exact le_trans hle ((sortedK_cons.mp hr).1 x hx2)

theorem mergeF_cnt (key : P → κ) (wt : P → ℚ) :
    ∀ (fuel : Nat) (l r : List P), l.length + r.length ≤ fuel →
      SortedK key l → SortedK key r →
      (mergeF key wt fuel l r).2 = crossSum (invf key wt) l r
  | 0, l, r, h, _, _ => by
    have hl : l = [] := List.eq_nil_of_length_eq_zero (by omega)
    subst hl
    simp [mergeF, crossSum_nil_left]
  | _ + 1, [], r, _, _, _ => by simp [mergeF, crossSum_nil_left]
  | _ + 1, p :: l, [], _, _, _ => by simp [mergeF, crossSum_nil_right]
  | fuel + 1, p :: l, q :: r, h, hl, hr => by
    by_cases hc : key q < key p
    · have hfuel : (p :: l).length + r.length ≤ fuel := by simp at h ⊢; omega
      have ih := mergeF_cnt key wt fuel (p :: l) r hfuel hl (sortedK_cons.mp hr).2
      simp only [mergeF, if_pos hc, ih, crossSum_cons_right]
      have hpt : ((p :: l).map fun x => invf key wt x q).sum =
          ((p :: l).map wt).sum * wt q := by
        rw [← listSumMulRight]
        refine listSumCongr _ _ _ fun x hx => ?_
        have hqx : key q < key x := by
          rcases List.mem_cons.mp hx with rfl | hx
          · exact hc
          · exact lt_of_lt_of_le hc ((sortedK_cons.mp hl).1 x hx)
        simp [invf, hqx]
      rw [hpt]; ring
    · have hle : key p ≤ key q := le_of_not_lt hc
      have hfuel : l.length + (q :: r).length ≤ fuel := by simp at h ⊢; omega
      have ih := mergeF_cnt key wt fuel l (q :: r) hfuel (sortedK_cons.mp hl).2 hr
      simp only [mergeF, if_neg hc, ih, crossSum_cons_left]
      have hz : ((q :: r).map (invf key wt p)).sum = 0 := by
        have : ∀ y ∈ q :: r, invf key wt p y = 0 := by
          intro y hy
          have hpy : key p ≤ key y := by
            rcases List.mem_cons.mp hy with rfl | hy
            · exact hle
            · exact le_trans hle ((sortedK_cons.mp hr).1 y hy)
          simp [invf, not_lt_of_le hpy]
        rw [listSumCongr _ (fun _ => 0) _ this]
        simp
      rw [hz]; ring

theorem mergeF_filter (key : P → κ) (wt : P → ℚ) (k : κ) :
    ∀ (fuel : Nat) (l r : List P), l.length + r.length ≤ fuel →
      SortedK key l → SortedK key r →
      filterK key k (mergeF key wt fuel l r).1 =
        filterK key k l ++ filterK key k r
  | 0, l, r, h, _, _ => by
    have hl : l = [] := List.eq_nil_of_length_eq_zero (by omega)
    have hr : r = [] := List.eq_nil_of_length_eq_zero (by omega)
    subst hl; subst hr
    simp [mergeF, filterK]
  | _ + 1, [], r, _, _, _ => by simp [mergeF, filterK]
  | _ + 1, p :: l, [], _, _, _ => by simp [mergeF, filterK]
  | fuel + 1, p :: l, q :: r, h, hl, hr => by
    by_cases hc : key q < key p
    · have hfuel : (p :: l).length + r.length ≤ fuel := by simp at h ⊢; omega
      have ih := mergeF_filter key wt k fuel (p :: l) r hfuel hl
        (sortedK_cons.mp hr).2
      simp only [mergeF, if_pos hc]
      rw [filterK_cons key k q, ih]
      by_cases hqk : key q = k
      · have hnil : filterK key k (p :: l) = [] := by
          refine filterK_eq_nil key k _ fun x hx => ?_
          have hqx : key q < key x := by
            rcases List.mem_cons.mp hx with rfl | hx
            · exact hc
            · exact lt_of_lt_of_le hc ((sortedK_cons.mp hl).1 x hx)
          rw [← hqk]
          exact fun hxk => absurd hxk.symm (ne_of_lt hqx)
        rw [if_pos hqk, hnil, filterK_cons key k q r, if_pos hqk]
        simp
      · rw [if_neg hqk, filterK_cons key k q r, if_neg hqk]
    · have hfuel : l.length + (q :: r).length ≤ fuel := by simp at h ⊢; omega
      have ih := mergeF_filter key wt k fuel l (q :: r) hfuel
        (sortedK_cons.mp hl).2 hr
      simp only [mergeF, if_neg hc]
      simp only [filterK_cons key k p, ih]
      by_cases hpk : key p = k <;> simp [hpk]

end MergeLemmas

/-! ## Chunk-sortedness and the bottom-up driver -/

section PassLoopLemmas

variable {P : Type} {κ : Type} [LinearOrder κ]

theorem sortedK_of_length_le_one {key : P → κ} {l : List P}
    (h : l.length ≤ 1) : SortedK key l := by
  match l, h with
  | [], _ => exact sortedK_nil key
  | [p], _ => exact List.pairwise_singleton _ p

theorem refInv_sorted_zero (key : P → κ) (wt : P → ℚ) {l : List P}
    (h : SortedK key l) : refInv key wt l = 0 := by
  unfold refInv
  have hz : l.Pairwise fun p q => invf key wt p q = (fun _ _ => (0 : ℚ)) p q :=
    h.imp fun hle => by simp [invf, not_lt_of_le hle]
  rw [pairSum_congr hz, pairSum_zero]

theorem chunkSorted_take {key : P → κ} {w : Nat} {l : List P}
    (h : chunkSorted key w l) : SortedK key (l.take w) := by
  have h0 := h 0
  simpa using h0

theorem chunkSorted_drop_take {key : P → κ} {w : Nat} {l : List P}
    (h : chunkSorted key w l) : SortedK key ((l.drop w).take w) := by
  have h1 := h 1
  simpa using h1

theorem chunkSorted_drop2 {key : P → κ} {w : Nat} {l : List P}
    (h : chunkSorted key w l) : chunkSorted key w (l.drop (2 * w)) := by
  intro i
  have h2 := h (i + 2)
  rw [List.drop_drop]
  have harith : 2 * w + i * w = (i + 2) * w := by ring
  rw [harith]
  exact h2

theorem chunkSorted_of_sorted {key : P → κ} (w : Nat) {l : List P}
    (h : SortedK key l) : chunkSorted key w l := fun _ =>
  List.Pairwise.sublist ((List.take_sublist _ _).trans (List.drop_sublist _ _)) h

theorem chunkSorted_one (key : P → κ) (l : List P) : chunkSorted key 1 l :=
  fun _ => sortedK_of_length_le_one (by simp)

theorem chunkSorted_sorted {key : P → κ} {w : Nat} {l : List P}
    (h : chunkSorted key w l) (hlen : l.length ≤ w) : SortedK key l := by
  have h0 := chunkSorted_take h
  rwa [List.take_of_length_le hlen] at h0

theorem mergeCnt_perm (key : P → κ) (wt : P → ℚ) (l r : List P) :
    ((mergeCnt key wt l r).1).Perm (l ++ r) :=
  mergeF_perm key wt _ l r le_rfl

theorem mergeCnt_sorted (key : P → κ) (wt : P → ℚ) {l r : List P}
    (hl : SortedK key l) (hr : SortedK key r) :
    SortedK key (mergeCnt key wt l r).1 :=
  mergeF_sorted key wt _ l r le_rfl hl hr

theorem mergeCnt_cnt (key : P → κ) (wt : P → ℚ) {l r : List P}
    (hl : SortedK key l) (hr : SortedK key r) :
    (mergeCnt key wt l r).2 = crossSum (invf key wt) l r :=
  mergeF_cnt key wt _ l r le_rfl hl hr

theorem mergeCnt_filter (key : P → κ) (wt : P → ℚ) (k : κ) {l r : List P}
    (hl : SortedK key l) (hr : SortedK key r) :
    filterK key k (mergeCnt key wt l r).1 = filterK key k l ++ filterK key k r :=
  mergeF_filter key wt k _ l r le_rfl hl hr

theorem filterK_append {κ2 : Type} [DecidableEq κ2] (key : P → κ2) (k : κ2)
    (l r : List P) :
    filterK key k (l ++ r) = filterK key k l ++ filterK key k r :=
  List.filter_append _ _

theorem passF_main (key : P → κ) (wt : P → ℚ) :
    ∀ (fuel width : Nat) (l : List P), 1 ≤ width → l.length ≤ fuel →
      chunkSorted key width l →
      ((passF key wt fuel width l).1).Perm l ∧
      chunkSorted key (2 * width) (passF key wt fuel width l).1 ∧
      refInv key wt l =
        refInv key wt (passF key wt fuel width l).1 + (passF key wt fuel width l).2 ∧
      ∀ k, filterK key k (passF key wt fuel width l).1 = filterK key k l
  | 0, width, l, _, hfuel, _ => by
    have hl : l = [] := List.eq_nil_of_length_eq_zero (by omega)
    subst hl
    refine ⟨List.Perm.refl _, ?_, by simp [passF, refInv, pairSum_nil], fun k => rfl⟩
    intro i
    simp [passF, SortedK]
  | fuel + 1, width, l, hw, hfuel, hcs => by
    by_cases hlw : l.length ≤ width
    · have hsorted := chunkSorted_sorted hcs hlw
      simp only [passF, if_pos hlw]
      refine ⟨List.Perm.refl _, chunkSorted_of_sorted _ hsorted, ?_, ?_⟩
      · ring
      · exact fun k => trivial
    · push_neg at hlw
      simp only [passF, if_neg (not_le.mpr hlw)]
      set A := l.take width with hA
      set B := (l.drop width).take width with hB
      set rest := l.drop (2 * width) with hrest
      have hsA : SortedK key A := chunkSorted_take hcs
      have hsB : SortedK key B := chunkSorted_drop_take hcs
      have hABl : A ++ B = l.take (2 * width) := by
        rw [hA, hB, two_mul, List.take_add]
      have hsplit : (A ++ B) ++ rest = l := by
        rw [hABl, hrest, List.take_append_drop]
      have hrestlen : rest.length ≤ fuel := by
        rw [hrest, List.length_drop]
        omega
      have hrestcs : chunkSorted key width rest := chunkSorted_drop2 hcs
      obtain ⟨ihperm, ihcs, ihcnt, ihfilt⟩ :=
        passF_main key wt fuel width rest hw hrestlen hrestcs
      set M := mergeCnt key wt A B with hM
      set R := passF key wt fuel width rest with hR
      have hMperm : (M.1).Perm (A ++ B) := mergeCnt_perm key wt A B
      have hMsorted : SortedK key M.1 := mergeCnt_sorted key wt hsA hsB
      have hMlen : M.1.length = A.length + B.length := by
        rw [hMperm.length_eq, List.length_append]
      have hAlen : A.length = width := by
        rw [hA, List.length_take]
        omega
      have hMle : M.1.length ≤ 2 * width := by
        rw [hMlen, hAlen, hB, List.length_take]
        omega
      have hperm : ((M.1 ++ R.1)).Perm l := hsplit ▸ hMperm.append ihperm
      refine ⟨hperm, ?_, ?_, ?_⟩
      · -- chunk-sortedness at the doubled width
        intro i
        match i with
        | 0 =>
          simp only [Nat.zero_mul, List.drop_zero]
          rw [List.take_append_eq_append_take, List.take_of_length_le hMle]
          by_cases hshort : l.length < 2 * width
          · have hrestnil : rest = [] := by
              rw [hrest]
              exact List.drop_eq_nil_of_le (by omega)
            have hRnil : R.1 = [] := by
              have hp := ihperm
              rw [hrestnil] at hp
              exact hp.eq_nil
            rw [hRnil]
            simpa using hMsorted
          · push_neg at hshort
            have hMfull : M.1.length = 2 * width := by
              rw [hMlen, hAlen, hB, List.length_take, List.length_drop]
              omega
            rw [hMfull]
            simp only [Nat.sub_self, List.take_zero, List.append_nil]
            exact hMsorted
        | j + 1 =>
          have hexp : (j + 1) * (2 * width) = j * (2 * width) + 2 * width := by ring
          rw [hexp, List.drop_append_eq_append_drop,
            List.drop_eq_nil_of_le (le_trans hMle (Nat.le_add_left _ _)),
            List.nil_append]
          by_cases hshort : l.length < 2 * width
          · have hrestnil : rest = [] := by
              rw [hrest]
              exact List.drop_eq_nil_of_le (by omega)
            have hRnil : R.1 = [] := by
              have hp := ihperm
              rw [hrestnil] at hp
              exact hp.eq_nil
            rw [hRnil]
            simp [SortedK]
          · push_neg at hshort
            have hMfull : M.1.length = 2 * width := by
              rw [hMlen, hAlen, hB, List.length_take, List.length_drop]
              omega
            rw [hMfull, Nat.add_sub_cancel]
            exact ihcs j
      · -- inversion-count bookkeeping across the pass
        have hMcnt : M.2 = crossSum (invf key wt) A B := mergeCnt_cnt key wt hsA hsB
        have hA0 : pairSum (invf key wt) A = 0 := refInv_sorted_zero key wt hsA
        have hB0 : pairSum (invf key wt) B = 0 := refInv_sorted_zero key wt hsB
        have hM0 : pairSum (invf key wt) M.1 = 0 := refInv_sorted_zero key wt hMsorted
        have hcross : crossSum (invf key wt) M.1 R.1 =
            crossSum (invf key wt) (A ++ B) rest := by
          rw [crossSum_perm_left _ hMperm, crossSum_perm_right _ _ ihperm]
        unfold refInv at ihcnt ⊢
        have lhs_eq : pairSum (invf key wt) l =
            crossSum (invf key wt) A B + pairSum (invf key wt) rest +
              crossSum (invf key wt) (A ++ B) rest := by
          conv_lhs => rw [← hsplit]
          rw [pairSum_append, pairSum_append, hA0, hB0]
          ring
        have rhs_eq : pairSum (invf key wt) (M.1 ++ R.1) =
            pairSum (invf key wt) R.1 + crossSum (invf key wt) (A ++ B) rest := by
          rw [pairSum_append, hM0, hcross]
          ring
        rw [lhs_eq, rhs_eq, hMcnt, ihcnt]
        ring
      · -- stability across the pass
        intro k
        rw [filterK_append, mergeCnt_filter key wt k hsA hsB, ihfilt k, ← hsplit,
          filterK_append, filterK_append]

theorem loopF_main (key : P → κ) (wt : P → ℚ) :
    ∀ (fuel width : Nat) (l : List P), 1 ≤ width → chunkSorted key width l →
      l.length ≤ width * 2 ^ fuel →
      SortedK key (loopF key wt fuel width l).1 ∧
      ((loopF key wt fuel width l).1).Perm l ∧
      (loopF key wt fuel width l).2 = refInv key wt l ∧
      ∀ k, filterK key k (loopF key wt fuel width l).1 = filterK key k l
  | 0, width, l, _, hcs, hbound => by
    have hlen : l.length ≤ width := by simpa using hbound
    have hsorted := chunkSorted_sorted hcs hlen
    simp only [loopF]
    exact ⟨hsorted, List.Perm.refl _, (refInv_sorted_zero key wt hsorted).symm,
      fun k => trivial⟩
  | fuel + 1, width, l, hw, hcs, hbound => by
    by_cases hlw : l.length ≤ width
    · have hsorted := chunkSorted_sorted hcs hlw
      simp only [loopF, if_pos hlw]
      refine ⟨hsorted, List.Perm.refl _, ?_, ?_⟩
      · exact (refInv_sorted_zero key wt hsorted).symm
      · exact fun k => trivial
    · push_neg at hlw
      simp only [loopF, if_neg (not_le.mpr hlw)]
      obtain ⟨pperm, pcs, pcnt, pfilt⟩ :=
        passF_main key wt l.length width l hw le_rfl hcs
      set pa := passF key wt l.length width l with hpa
      have hbound2 : pa.1.length ≤ (2 * width) * 2 ^ fuel := by
        rw [pperm.length_eq]
        calc l.length ≤ width * 2 ^ (fuel + 1) := hbound
        _ = (2 * width) * 2 ^ fuel := by ring
      obtain ⟨ihsort, ihperm, ihcnt, ihfilt⟩ :=
        loopF_main key wt fuel (2 * width) pa.1 (by omega) pcs hbound2
      refine ⟨ihsort, ihperm.trans pperm, ?_, fun k => (ihfilt k).trans (pfilt k)⟩
      rw [ihcnt, pcnt]
      ring

theorem wmSort_main (key : P → κ) (wt : P → ℚ) (l : List P) :
    SortedK key (wmSort key wt l).1 ∧ ((wmSort key wt l).1).Perm l ∧
    (wmSort key wt l).2 = refInv key wt l ∧
    ∀ k, filterK key k (wmSort key wt l).1 = filterK key k l := by
  have h := loopF_main key wt l.length 1 l le_rfl (chunkSorted_one key l)
    (by simpa using (Nat.lt_two_pow l.length).le)
  simpa [wmSort] using h

theorem wmSort_sorted (key : P → κ) (wt : P → ℚ) (l : List P) :
    SortedK key (wmSort key wt l).1 := (wmSort_main key wt l).1

theorem wmSort_perm (key : P → κ) (wt : P → ℚ) (l : List P) :
    ((wmSort key wt l).1).Perm l := (wmSort_main key wt l).2.1

theorem wmSort_cnt (key : P → κ) (wt : P → ℚ) (l : List P) :
    (wmSort key wt l).2 = refInv key wt l := (wmSort_main key wt l).2.2.1

theorem wmSort_filter (key : P → κ) (wt : P → ℚ) (l : List P) (k : κ) :
    filterK key k (wmSort key wt l).1 = filterK key k l :=
  (wmSort_main key wt l).2.2.2 k

end PassLoopLemmas

/-! ## Tie-term lemmas -/

section TieLemmas

variable {P : Type} {κ : Type} [DecidableEq κ] [LinearOrder κ]

omit [LinearOrder κ] in
theorem runSum_zero_of_not_mem {key : P → κ} {wt : P → ℚ} {k : κ} {t : List P}
    (h : k ∉ t.map key) : runSum key wt k t = 0 := by
  cases t with
  | nil => rfl
  | cons q t2 =>
    have hne : key q ≠ k := by
      intro he
      exact h (by simp [he])
    simp [runSum, hne]

omit [LinearOrder κ] in
theorem tieTerm_zero_of_nodup {key : P → κ} {wt : P → ℚ} {l : List P}
    (h : (l.map key).Nodup) : tieTerm key wt l = 0 := by
  induction l with
  | nil => rfl
  | cons p t ih =>
    rw [List.map_cons, List.nodup_cons] at h
    simp [tieTerm, runSum_zero_of_not_mem h.1, ih h.2]

theorem runSum_eq_filter {key : P → κ} {wt : P → ℚ} {k : κ} :
    ∀ {t : List P}, SortedK key t → (∀ q ∈ t, k ≤ key q) →
      runSum key wt k t = (t.map fun q => if key q = k then wt q else 0).sum := by
  intro t
  induction t with
  | nil => intro _ _; rfl
  | cons q t2 ih =>
    intro hs hlow
    by_cases hqk : key q = k
    · have ht2 := (sortedK_cons.mp hs).2
      have hlow2 : ∀ x ∈ t2, k ≤ key x := fun x hx =>
        hlow x (List.mem_cons_of_mem q hx)
      simp [runSum, hqk, ih ht2 hlow2]
    · have hklt : k < key q :=
        lt_of_le_of_ne (hlow q (List.mem_cons_self q t2)) (Ne.symm hqk)
      have hz : (t2.map fun x => if key x = k then wt x else 0).sum = 0 := by
        rw [listSumCongr _ (fun _ => 0) _ fun x hx => ?_]
        · simp
        · have hqa : key q ≤ key x := (sortedK_cons.mp hs).1 x hx
          have : key x ≠ k := fun he => absurd (he ▸ hqa) (not_le_of_lt hklt)
          simp [this]
      simp [runSum, hqk, hz]

/-- Tie-indicator summand: a pair of equal keys contributes twice the product
of its weights (`Gw² − Gw2` counts each unordered tied pair twice). -/
def tief (key : P → κ) (wt : P → ℚ) : P → P → ℚ :=
  fun p q => if key p = key q then 2 * (wt p * wt q) else 0

theorem tieTerm_eq_pairSum {key : P → κ} {wt : P → ℚ} {l : List P}
    (hs : SortedK key l) : tieTerm key wt l = pairSum (tief key wt) l := by
  induction l with
  | nil => rfl
  | cons p t ih =>
    have ht := (sortedK_cons.mp hs).2
    have hlow : ∀ q ∈ t, key p ≤ key q := (sortedK_cons.mp hs).1
    rw [tieTerm, pairSum_cons, ih ht, runSum_eq_filter ht hlow]
    have hmap : (t.map (tief key wt p)).sum =
        2 * wt p * (t.map fun q => if key q = key p then wt q else 0).sum := by
      rw [← listSumMulLeft]
      refine listSumCongr _ _ _ fun q _ => ?_
      by_cases hq : key p = key q
      · simp [tief, hq, eq_comm]
        ring
      · have hq2 : ¬key q = key p := fun he => hq he.symm
        simp [tief, hq, hq2]
    rw [hmap]

theorem sorted_nodup_pairwise_lt {key : P → κ} {l : List P}
    (hs : SortedK key l) (hn : (l.map key).Nodup) :
    l.Pairwise fun p q => key p < key q := by
  have hne : l.Pairwise fun p q => key p ≠ key q := List.pairwise_map.mp hn
  exact (hs.and hne).imp fun h => lt_of_le_of_ne h.1 h.2

end TieLemmas

/-! ## List utilities for the statistics layer -/

section ZipLemmas

theorem zip_map_fst_snd_eq {α β : Type} (l : List (α × β)) :
    (l.map Prod.fst).zip (l.map Prod.snd) = l := by
  induction l with
  | nil => rfl
  | cons p t ih => simp [ih]

theorem zip_lengths_eq {α β : Type} (a : List α) (b : List β)
    (h : a.length = b.length) : (a.zip b).length = a.length := by
  simp [List.length_zip, h]

theorem pairSum_map {α β : Type} (f : β → β → ℚ) (g : α → β) (l : List α) :
    pairSum f (l.map g) = pairSum (fun p q => f (g p) (g q)) l := by
  induction l with
  | nil => rfl
  | cons p t ih =>
    simp only [List.map_cons, pairSum_cons, List.map_map, ih]
    rfl

theorem pairSum_ext {α : Type} {f g : α → α → ℚ} (h : ∀ p q, f p q = g p q)
    (l : List α) : pairSum f l = pairSum g l := by
  have he : f = g := funext fun p => funext fun q => h p q
  rw [he]

theorem zip3_proj (a b w : List ℚ) :
    ∀ (_ : a.length = b.length) (_ : a.length = w.length),
      (statistics.zip3 a b w).map statistics.trA = a ∧
      (statistics.zip3 a b w).map statistics.trB = b ∧
      (statistics.zip3 a b w).map statistics.trW = w := by
  induction a generalizing b w with
  | nil =>
    intro h1 h2
    have hb : b = [] := List.eq_nil_of_length_eq_zero (by simpa using h1.symm)
    have hw : w = [] := List.eq_nil_of_length_eq_zero (by simpa using h2.symm)
    subst hb; subst hw
    exact ⟨rfl, rfl, rfl⟩
  | cons x a ih =>
    intro h1 h2
    match b, w with
    | [], _ => simp at h1
    | _ :: _, [] => simp at h2
    | y :: b, z :: w =>
      obtain ⟨e1, e2, e3⟩ := ih b w (by simpa using h1) (by simpa using h2)
      refine ⟨?_, ?_, ?_⟩ <;>
        simp [statistics.zip3, statistics.trA, statistics.trB, statistics.trW,
          e1, e2, e3] <;>
        first
        | exact e1
        | exact e2
        | exact e3

theorem mem_zip3_trW {p : ℚ × ℚ × ℚ} {a b w : List ℚ}
    (h : p ∈ statistics.zip3 a b w) : statistics.trW p ∈ w := by
  unfold statistics.zip3 at h
  have hp : (p.1, p.2) ∈ a.zip (b.zip w) := by simpa using h
  have h2 := (List.of_mem_zip hp).2
  have hp2 : (p.2.1, p.2.2) ∈ b.zip w := by simpa using h2
  exact (List.of_mem_zip hp2).2

/-- The component swap `(a, b, w) ↦ (b, a, w)` on observation triples. -/
def swapAB (p : ℚ × ℚ × ℚ) : ℚ × ℚ × ℚ :=
  (statistics.trB p, statistics.trA p, statistics.trW p)

theorem zip3_swap (a : List ℚ) : ∀ (b w : List ℚ),
    statistics.zip3 b a w = (statistics.zip3 a b w).map swapAB := by
  induction a with
  | nil =>
    intro b w
    cases b <;> simp [statistics.zip3]
  | cons x a ih =>
    intro b w
    match b, w with
    | [], _ => simp [statistics.zip3]
    | _ :: _, [] => simp [statistics.zip3]
    | y :: b, z :: w =>
      have := ih b w
      simp [statistics.zip3, swapAB, statistics.trA, statistics.trB,
        statistics.trW] at this ⊢
      exact this

end ZipLemmas

/-! ## Reference semantics of the Tau-b pipeline -/

namespace statistics

/-- Strictly-discordant pair summand: the two variables order the pair in
opposite strict directions; mass `wᵢ·wⱼ` per unordered pair. -/
def discf (p q : ℚ × ℚ × ℚ) : ℚ :=
  if (trA p < trA q ∧ trB q < trB p) ∨ (trA q < trA p ∧ trB p < trB q) then
    trW p * trW q
  else 0

/-- Strictly-concordant pair summand. -/
def conf (p q : ℚ × ℚ × ℚ) : ℚ :=
  if (trA p < trA q ∧ trB p < trB q) ∨ (trA q < trA p ∧ trB q < trB p) then
    trW p * trW q
  else 0

/-- `b`-tied pair summand (one mass unit per unordered pair). -/
def tiebf (p q : ℚ × ℚ × ℚ) : ℚ :=
  if trB p = trB q then trW p * trW q else 0

/-- Weight-product summand (every pair). -/
def wprodf (p q : ℚ × ℚ × ℚ) : ℚ := trW p * trW q

theorem discf_symm (p q : ℚ × ℚ × ℚ) : discf p q = discf q p := by
  unfold discf
  rw [mul_comm]
  exact if_congr (by tauto) rfl rfl

theorem tiebf_symm (p q : ℚ × ℚ × ℚ) : tiebf p q = tiebf q p := by
  unfold tiebf
  rw [mul_comm]
  exact if_congr (by tauto) rfl rfl

theorem tief_trB_symm (p q : ℚ × ℚ × ℚ) :
    tief trB trW p q = tief trB trW q p := by
  unfold tief
  rw [mul_comm (trW p)]
  exact if_congr (by tauto) rfl rfl

theorem tauLa_perm (a b w : List ℚ) : (tauLa a b w).Perm (zip3 a b w) :=
  wmSort_perm trA trW (zip3 a b w)

theorem tauLab_perm (a b w : List ℚ) : (tauLab a b w).Perm (zip3 a b w) :=
  (wmSort_perm trB trW (tauLa a b w)).trans (tauLa_perm a b w)

theorem tauLa_sorted (a b w : List ℚ) : SortedK trA (tauLa a b w) :=
  wmSort_sorted trA trW (zip3 a b w)

theorem tauLab_sorted (a b w : List ℚ) : SortedK trB (tauLab a b w) :=
  wmSort_sorted trB trW (tauLa a b w)

theorem tauLa_map_trA_nodup {a b w : List ℚ} (h1 : a.length = b.length)
    (h2 : a.length = w.length) (ha : a.Nodup) :
    ((tauLa a b w).map trA).Nodup := by
  have hz : ((zip3 a b w).map trA).Nodup := by
    rw [(zip3_proj a b w h1 h2).1]
    exact ha
  exact ((tauLa_perm a b w).map trA).symm.nodup hz

theorem tauLab_map_trA_nodup {a b w : List ℚ} (h1 : a.length = b.length)
    (h2 : a.length = w.length) (ha : a.Nodup) :
    ((tauLab a b w).map trA).Nodup := by
  have hz : ((zip3 a b w).map trA).Nodup := by
    rw [(zip3_proj a b w h1 h2).1]
    exact ha
  exact ((tauLab_perm a b w).map trA).symm.nodup hz

theorem tauLab_map_trB_nodup {a b w : List ℚ} (h1 : a.length = b.length)
    (h2 : a.length = w.length) (hb : b.Nodup) :
    ((tauLab a b w).map trB).Nodup := by
  have hz : ((zip3 a b w).map trB).Nodup := by
    rw [(zip3_proj a b w h1 h2).2.1]
    exact hb
  exact ((tauLab_perm a b w).map trB).symm.nodup hz

theorem tauN1_zero {a b w : List ℚ} (h1 : a.length = b.length)
    (h2 : a.length = w.length) (ha : a.Nodup) : tauN1 a b w = 0 :=
  tieTerm_zero_of_nodup (tauLa_map_trA_nodup h1 h2 ha)

theorem tauN2_zero {a b w : List ℚ} (h1 : a.length = b.length)
    (h2 : a.length = w.length) (hb : b.Nodup) : tauN2 a b w = 0 :=
  tieTerm_zero_of_nodup (tauLab_map_trB_nodup h1 h2 hb)

theorem tauTj_zero {a b w : List ℚ} (h1 : a.length = b.length)
    (h2 : a.length = w.length) (ha : a.Nodup) : tauTj a b w = 0 := by
  refine tieTerm_zero_of_nodup ?_
  have hA := tauLab_map_trA_nodup h1 h2 ha
  have hne : (tauLab a b w).Pairwise fun p q => trA p ≠ trA q :=
    List.pairwise_map.mp hA
  refine List.pairwise_map.mpr (hne.imp ?_)
  intro p q hpq he
  exact hpq (congrArg (fun r : ℚ × ℚ => r.1) he)

theorem tauN2_eq_two_tiebf (a b w : List ℚ) :
    tauN2 a b w = 2 * pairSum tiebf (zip3 a b w) := by
  have htief : ∀ p q : ℚ × ℚ × ℚ, tief trB trW p q = tiebf p q + tiebf p q := by
    intro p q
    unfold tief tiebf
    by_cases h : trB p = trB q <;> simp [h] <;> ring
  unfold tauN2
  rw [tieTerm_eq_pairSum (tauLab_sorted a b w),
    pairSum_perm _ tief_trB_symm (tauLab_perm a b w),
    pairSum_ext htief (zip3 a b w), pairSum_add]
  ring

theorem tauN0_eq {a b w : List ℚ} (h1 : a.length = b.length)
    (h2 : a.length = w.length) :
    tauN0 w = 2 * pairSum wprodf (zip3 a b w) := by
  have hw : (zip3 a b w).map trW = w := (zip3_proj a b w h1 h2).2.2
  have hmm : w.map (fun x => x * x) = (zip3 a b w).map fun p => trW p * trW p := by
    conv_lhs => rw [← hw]
    rw [List.map_map]
    rfl
  unfold tauN0 sum wprodf
  rw [pairSum_wprod trW (zip3 a b w), hw, hmm]

theorem tauD_eq {a b w : List ℚ} (h1 : a.length = b.length)
    (h2 : a.length = w.length) (ha : a.Nodup) :
    tauD a b w = 2 * pairSum discf (zip3 a b w) := by
  unfold tauD
  rw [wmSort_cnt trB trW (tauLa a b w)]
  have hlt : (tauLa a b w).Pairwise fun p q => trA p < trA q :=
    sorted_nodup_pairwise_lt (tauLa_sorted a b w) (tauLa_map_trA_nodup h1 h2 ha)
  have hcongr : (tauLa a b w).Pairwise fun p q =>
      invf trB trW p q = discf p q := by
    refine hlt.imp ?_
    intro p q hA
    unfold invf discf
    by_cases hB : trB q < trB p
    · rw [if_pos hB, if_pos (Or.inl ⟨hA, hB⟩)]
    · rw [if_neg hB, if_neg ?_]
      rintro (⟨_, hbb⟩ | ⟨haa, _⟩)
      · exact hB hbb
      · exact absurd hA (lt_asymm haa)
  unfold refInv
  rw [pairSum_congr hcongr, pairSum_perm _ discf_symm (tauLa_perm a b w)]

theorem wprod_decompose {p q : ℚ × ℚ × ℚ} (hne : trA p ≠ trA q) :
    wprodf p q = conf p q + discf p q + tiebf p q := by
  unfold wprodf conf discf tiebf
  rcases lt_or_gt_of_ne hne with hA | hA
  · rcases lt_trichotomy (trB p) (trB q) with hB | hB | hB
    · rw [if_pos (Or.inl ⟨hA, hB⟩), if_neg ?dneg, if_neg (ne_of_lt hB)]
      · ring
      case dneg =>
        rintro (⟨_, hbb⟩ | ⟨haa, _⟩)
        · exact absurd hB (lt_asymm hbb)
        · exact absurd hA (lt_asymm haa)
    · rw [if_neg ?cneg, if_neg ?dneg, if_pos hB]
      · ring
      case cneg =>
        rintro (⟨_, hbb⟩ | ⟨haa, _⟩)
        · exact absurd hbb (hB ▸ lt_irrefl _)
        · exact absurd hA (lt_asymm haa)
      case dneg =>
        rintro (⟨_, hbb⟩ | ⟨haa, _⟩)
        · exact absurd hbb (hB ▸ lt_irrefl _)
        · exact absurd hA (lt_asymm haa)
    · rw [if_neg ?cneg, if_pos (Or.inl ⟨hA, hB⟩), if_neg (ne_of_gt hB)]
      · ring
      case cneg =>
        rintro (⟨_, hbb⟩ | ⟨haa, _⟩)
        · exact absurd hB (lt_asymm hbb)
        · exact absurd hA (lt_asymm haa)
  · rcases lt_trichotomy (trB p) (trB q) with hB | hB | hB
    · rw [if_neg ?cneg, if_pos (Or.inr ⟨hA, hB⟩), if_neg (ne_of_lt hB)]
      · ring
      case cneg =>
        rintro (⟨haa, _⟩ | ⟨_, hbb⟩)
        · exact absurd hA (lt_asymm haa)
        · exact absurd hB (lt_asymm hbb)
    · rw [if_neg ?cneg, if_neg ?dneg, if_pos hB]
      · ring
      case cneg =>
        rintro (⟨haa, _⟩ | ⟨_, hbb⟩)
        · exact absurd hA (lt_asymm haa)
        · exact absurd hbb (hB ▸ lt_irrefl _)
      case dneg =>
        rintro (⟨haa, _⟩ | ⟨_, hbb⟩)
        · exact absurd hA (lt_asymm haa)
        · exact absurd hbb (hB ▸ lt_irrefl _)
    · rw [if_pos (Or.inr ⟨hA, hB⟩), if_neg ?dneg, if_neg (ne_of_gt hB)]
      · ring
      case dneg =>
        rintro (⟨haa, _⟩ | ⟨_, hbb⟩)
        · exact absurd hA (lt_asymm haa)
        · exact absurd hB (lt_asymm hbb)

theorem wprod_split {l : List (ℚ × ℚ × ℚ)}
    (h : l.Pairwise fun p q => trA p ≠ trA q) :
    pairSum wprodf l = pairSum conf l + pairSum discf l + pairSum tiebf l := by
  rw [← pairSum_add, ← pairSum_add]
  exact pairSum_congr (h.imp fun hne => wprod_decompose hne)

end statistics

/-! ## Indexed reference sums -/

section IndexedSums

theorem listMapSum_eq_range {α : Type} (f : α → ℚ) (d : α) (l : List α) :
    (l.map f).sum = ∑ i in Finset.range l.length, f (l.getD i d) := by
  induction l with
  | nil => simp
  | cons p t ih =>
    rw [List.map_cons, List.sum_cons, List.length_cons, Finset.sum_range_succ']
    simp only [List.getD_cons_succ, List.getD_cons_zero]
    rw [← ih]
    ring

theorem listSum_eq_range (l : List ℚ) :
    l.sum = ∑ i in Finset.range l.length, l.getD i 0 := by
  have h := listMapSum_eq_range (fun x => x) 0 l
  simpa using h

theorem pairSum_eq_range {α : Type} (f : α → α → ℚ) (d : α) (l : List α) :
    pairSum f l = ∑ j in Finset.range l.length, ∑ i in Finset.range j,
      f (l.getD i d) (l.getD j d) := by
  induction l with
  | nil => simp [pairSum_nil]
  | cons p t ih =>
    rw [pairSum_cons, List.length_cons, Finset.sum_range_succ']
    simp only [List.getD_cons_succ, List.getD_cons_zero, Finset.range_zero,
      Finset.sum_empty, add_zero]
    have hinner : ∀ j ∈ Finset.range t.length,
        ∑ i in Finset.range (j + 1), f ((p :: t).getD i d) (t.getD j d) =
          (∑ i in Finset.range j, f (t.getD i d) (t.getD j d)) + f p (t.getD j d) := by
      intro j _
      rw [Finset.sum_range_succ']
      simp only [List.getD_cons_succ, List.getD_cons_zero]
    rw [Finset.sum_congr rfl hinner, Finset.sum_add_distrib, ← ih,
      listMapSum_eq_range (f p) d t]
    ring

theorem zip_getD {α β : Type} (da : α) (db : β) :
    ∀ (a : List α) (b : List β) (i : Nat), i < a.length → i < b.length →
      (a.zip b).getD i (da, db) = (a.getD i da, b.getD i db) := by
  intro a
  induction a with
  | nil =>
    intro b i h1 _
    simp at h1
  | cons x a ih =>
    intro b i h1 h2
    match b with
    | [] => simp at h2
    | y :: b =>
      match i with
      | 0 => simp
      | i + 1 =>
        simp only [List.zip_cons_cons, List.getD_cons_succ]
        exact ih b i (by simpa using h1) (by simpa using h2)

end IndexedSums

namespace statistics

/-- The direct `O(n²)` reference value of the weighted inversion count
(spec §8): `Σ_{i<j, data[i] > data[j]} weights[i]·weights[j]`, evaluated on
the arrays as given before any sorting (indices beyond the length default to
`0` and are never reached for `i < j < length`). -/
def referenceInversionCount (data weights : List ℚ) : ℚ :=
  ∑ j in Finset.range data.length, ∑ i in Finset.range j,
    if data.getD j 0 < data.getD i 0 then weights.getD i 0 * weights.getD j 0
    else 0

theorem wms_count_eq_reference (data weights : List ℚ)
    (h : data.length = weights.length) :
    (wmSort (fun p : ℚ × ℚ => p.1) (fun p => p.2) (data.zip weights)).2 =
      referenceInversionCount data weights := by
  rw [wmSort_cnt]
  unfold refInv referenceInversionCount
  rw [pairSum_eq_range _ ((0 : ℚ), (0 : ℚ)) (data.zip weights)]
  have hlen : (data.zip weights).length = data.length := by
    simp [List.length_zip, h]
  rw [hlen]
  refine Finset.sum_congr rfl fun j hj => Finset.sum_congr rfl fun i hi => ?_
  have hj2 : j < data.length := Finset.mem_range.mp hj
  have hi2 : i < j := Finset.mem_range.mp hi
  rw [zip_getD 0 0 data weights i (by omega) (by omega),
    zip_getD 0 0 data weights j (by omega) (by omega)]
  rfl

/-- C1: for index-aligned inputs, `weighted_merge_sort_mut` succeeds, leaves
the data sorted ascending, and reorders the weights under exactly the same
permutation as the data: the output `(value, weight)` pairs are a
permutation of the input pairs, so re-pairing by original index recovers the
original pairs. -/
theorem weighted_merge_sort_mut_sorts (data weights : List ℚ)
    (h : data.length = weights.length) :
    ∃ d2 w2 c, weighted_merge_sort_mut data weights = Except.ok (d2, w2, c) ∧
      d2.Pairwise (· ≤ ·) ∧ (d2.zip w2).Perm (data.zip weights) := by
  refine ⟨(wmSort (fun p : ℚ × ℚ => p.1) (fun p => p.2) (data.zip weights)).1.map
      Prod.fst,
    (wmSort (fun p : ℚ × ℚ => p.1) (fun p => p.2) (data.zip weights)).1.map
      Prod.snd,
    (wmSort (fun p : ℚ × ℚ => p.1) (fun p => p.2) (data.zip weights)).2,
    ?_, ?_, ?_⟩
  · simp only [weighted_merge_sort_mut, if_pos h]
  · exact List.pairwise_map.mpr
      (wmSort_sorted (fun p : ℚ × ℚ => p.1) (fun p => p.2) (data.zip weights))
  · rw [zip_map_fst_snd_eq]
    exact wmSort_perm (fun p : ℚ × ℚ => p.1) (fun p => p.2) (data.zip weights)

/-- Closed witness for C1 at a concrete input. -/
theorem weighted_merge_sort_mut_sorts_witness :
    ∃ d2 w2 c,
      weighted_merge_sort_mut [(3 : ℚ), 1, 2] [(5 : ℚ), 6, 7] =
        Except.ok (d2, w2, c) ∧
      d2.Pairwise (· ≤ ·) ∧
      (d2.zip w2).Perm ([(3 : ℚ), 1, 2].zip [(5 : ℚ), 6, 7]) :=
  weighted_merge_sort_mut_sorts [3, 1, 2] [5, 6, 7] rfl

/-- C2: the scalar returned by `weighted_merge_sort_mut` is exactly the
direct `O(n²)` reference inversion count of the pre-sort arrays. -/
theorem weighted_merge_sort_mut_count (data weights : List ℚ)
    (h : data.length = weights.length) :
    ∃ d2 w2, weighted_merge_sort_mut data weights =
      Except.ok (d2, w2, referenceInversionCount data weights) := by
  refine ⟨(wmSort (fun p : ℚ × ℚ => p.1) (fun p => p.2) (data.zip weights)).1.map
      Prod.fst,
    (wmSort (fun p : ℚ × ℚ => p.1) (fun p => p.2) (data.zip weights)).1.map
      Prod.snd, ?_⟩
  simp only [weighted_merge_sort_mut, if_pos h]
  rw [wms_count_eq_reference data weights h]

/-- Closed witness for C2 at a concrete input, with the count evaluated. -/
theorem weighted_merge_sort_mut_count_witness :
    (∃ d2 w2, weighted_merge_sort_mut [(3 : ℚ), 1, 2] [(5 : ℚ), 6, 7] =
      Except.ok (d2, w2, referenceInversionCount [(3 : ℚ), 1, 2] [(5 : ℚ), 6, 7])) ∧
    referenceInversionCount [(3 : ℚ), 1, 2] [(5 : ℚ), 6, 7] = 65 :=
  ⟨weighted_merge_sort_mut_count [3, 1, 2] [5, 6, 7] rfl,
    by norm_num [referenceInversionCount, Finset.sum_range_succ]⟩

/-- C3: stability — the sort preserves, for every value `v`, the exact
subsequence of `(value, weight)` pairs whose value is `v` (equal values keep
their original relative order), and the returned count is the reference sum
in which tied pairs contribute nothing (only strict inversions are
counted). -/
theorem weighted_merge_sort_mut_stable (data weights : List ℚ)
    (h : data.length = weights.length) :
    ∃ d2 w2, (weighted_merge_sort_mut data weights =
        Except.ok (d2, w2, referenceInversionCount data weights) ∧
      ∀ v : ℚ, (d2.zip w2).filter (fun p => decide (p.1 = v)) =
        (data.zip weights).filter fun p => decide (p.1 = v)) := by
  refine ⟨(wmSort (fun p : ℚ × ℚ => p.1) (fun p => p.2) (data.zip weights)).1.map
      Prod.fst,
    (wmSort (fun p : ℚ × ℚ => p.1) (fun p => p.2) (data.zip weights)).1.map
      Prod.snd, ?_, ?_⟩
  · simp only [weighted_merge_sort_mut, if_pos h]
    rw [wms_count_eq_reference data weights h]
  · intro v
    rw [zip_map_fst_snd_eq]
    exact wmSort_filter (fun p : ℚ × ℚ => p.1) (fun p => p.2)
      (data.zip weights) v

/-- Closed witness for C3 at a concrete input containing a tie. -/
theorem weighted_merge_sort_mut_stable_witness :
    ∃ d2 w2, (weighted_merge_sort_mut [(2 : ℚ), 1, 1] [(5 : ℚ), 6, 7] =
        Except.ok (d2, w2, referenceInversionCount [(2 : ℚ), 1, 1] [(5 : ℚ), 6, 7]) ∧
      ∀ v : ℚ, (d2.zip w2).filter (fun p => decide (p.1 = v)) =
        ([(2 : ℚ), 1, 1].zip [(5 : ℚ), 6, 7]).filter fun p => decide (p.1 = v)) :=
  weighted_merge_sort_mut_stable [2, 1, 1] [5, 6, 7] rfl

/-! ## Reducer claims -/

/-- The spec formula for effective sample size, `(Σ wᵢ)² / Σ wᵢ²`, written
over indexed sums. -/
def essFormula (weights : List ℚ) : ℚ :=
  (∑ i in Finset.range weights.length, weights.getD i 0) ^ 2 /
    ∑ i in Finset.range weights.length, (weights.getD i 0) ^ 2

theorem effective_sample_size_eq_formula (w : List ℚ) :
    effective_sample_size w = essFormula w := by
  unfold effective_sample_size essFormula sum
  rw [listSum_eq_range w, listMapSum_eq_range (fun x => x * x) 0 w]
  congr 1
  exact Finset.sum_congr rfl fun i _ => by ring

/-- C5: for every non-empty weight sequence with at least one non-zero
weight, `effective_sample_size` returns `(Σ wᵢ)² / Σ wᵢ²`; in particular it
is `4` on `[1,1,1,1]` and `1` on `[1,0,0,0]`. -/
theorem effective_sample_size_spec (weights : List ℚ)
    (h1 : weights ≠ []) (h2 : ∃ x ∈ weights, x ≠ 0) :
    effective_sample_size weights = essFormula weights ∧
    effective_sample_size [1, 1, 1, 1] = 4 ∧
    effective_sample_size [1, 0, 0, 0] = 1 :=
  ⟨effective_sample_size_eq_formula weights,
    by norm_num [effective_sample_size, sum],
    by norm_num [effective_sample_size, sum]⟩

/-- Closed witness for C5 at a concrete input. -/
theorem effective_sample_size_spec_witness :
    effective_sample_size [1, 0, 0, 0] = essFormula [1, 0, 0, 0] ∧
    effective_sample_size [1, 1, 1, 1] = 4 ∧
    effective_sample_size [1, 0, 0, 0] = 1 :=
  effective_sample_size_spec [1, 0, 0, 0] (by simp)
    ⟨1, by norm_num, one_ne_zero⟩

/-- C8 counterexample: `effective_sample_size` raises no error at all — its
binding signature is a bare `f64`.  A negative weight is accepted and
produces the formula value, and all-zero weights silently divide by zero
(yielding the exact-arithmetic sentinel `0`, `NaN` in `f64`), contradicting
the claimed `InvalidInput` failure. -/
theorem effective_sample_size_no_error :
    binding.statistics_effective_sample_size [0, 0] = 0 ∧
    binding.statistics_effective_sample_size [-1, 2] = 1 / 5 := by
  constructor <;>
    norm_num [binding.statistics_effective_sample_size,
      effective_sample_size, sum]

/-- C8 amended: `effective_sample_size` performs no input validation and
cannot fail: for every weight sequence (negative or all-zero included) it
returns the total formula value `(Σ wᵢ)² / Σ wᵢ²` under the exact-arithmetic
convention `x / 0 = 0` (`f64` would yield `NaN`). -/
theorem effective_sample_size_total (weights : List ℚ) :
    binding.statistics_effective_sample_size weights = essFormula weights :=
  effective_sample_size_eq_formula weights

/-! ## Binding-surface claims -/

/-- C9: the Tau-b binding has no caller-visible side effects: the caller's
three sequences are returned unchanged (the Rust binding receives them as
by-value `Vec<f64>` copies), and the only observable result is the scalar of
the pure core computation. -/
theorem tau_no_side_effects (a b w : List ℚ) :
    (binding.statistics_weighted_kendall_tau_b a b w).2 = (a, b, w) ∧
    ∀ r, (binding.statistics_weighted_kendall_tau_b a b w).1 = Except.ok r →
      weighted_kendall_tau_b a b w = Except.ok r := by
  constructor
  · rfl
  · intro r hr
    unfold binding.statistics_weighted_kendall_tau_b at hr
    cases hcore : weighted_kendall_tau_b a b w with
    | ok v =>
      rw [hcore] at hr
      have hr2 : @Except.ok binding.PyErr (ℚ × ℚ) v = Except.ok r := hr
      have hv : v = r := by
        injection hr2
      rw [hv]
    | error e =>
      rw [hcore] at hr
      simp at hr

/-- Closed witness for C9 at a concrete input. -/
theorem tau_no_side_effects_witness :
    (binding.statistics_weighted_kendall_tau_b [1, 2, 3] [1, 2, 3]
        [1, 1, 1]).2 = ([1, 2, 3], [1, 2, 3], [1, 1, 1]) ∧
    weighted_kendall_tau_b [1, 2, 3] [1, 2, 3] [1, 1, 1] = Except.ok (6, 36) :=
  ⟨(tau_no_side_effects [1, 2, 3] [1, 2, 3] [1, 1, 1]).1,
    (tau_no_side_effects [1, 2, 3] [1, 2, 3] [1, 1, 1]).2 (6, 36)
      (by norm_num [binding.statistics_weighted_kendall_tau_b,
        weighted_kendall_tau_b, tauNum, tauN0, tauN1, tauN2, tauTj, tauD,
        tauLa, tauLab, zip3, wmSort, loopF, passF, mergeCnt, mergeF, tieTerm,
        runSum, sum, trA, trB, trW, trAB, List.zip, List.zipWith])⟩

/-- An example dtype name outside the supported pair (any other dtype takes
the same `else` branch of the extraction chain). -/
def otherDtype : String := "uint16"

/-- C10: the Python surface of `weighted_merge_sort_mut` accepts exactly the
`f64` and `i32` array dtypes; any other dtype yields the
`TypeError "Unsupported array dtype."` without calling the core, so neither
the data array nor the weights array changes on that path. -/
theorem dtype_dispatch :
    (∀ (s : String) (weights : List ℚ),
      binding.statistics_weighted_merge_sort_mut (binding.PyValue.unsupported s)
          weights =
        (Except.error (binding.PyErr.typeError binding.unsupportedMsg),
          binding.PyValue.unsupported s, weights)) ∧
    (∀ (data : List ℚ) (weights : List ℚ), data.length = weights.length →
      ∃ c d2 w2,
        binding.statistics_weighted_merge_sort_mut (binding.PyValue.f64Array data)
            weights =
          (Except.ok c, binding.PyValue.f64Array d2, w2)) ∧
    (∀ (data : List ℤ) (weights : List ℚ), data.length = weights.length →
      ∃ c d2 w2,
        binding.statistics_weighted_merge_sort_mut (binding.PyValue.i32Array data)
            weights =
          (Except.ok c, binding.PyValue.i32Array d2, w2)) := by
  refine ⟨fun s weights => rfl, ?_, ?_⟩
  · intro d w h
    have hcore : weighted_merge_sort_mut d w = Except.ok
        ((wmSort (fun p : ℚ × ℚ => p.1) (fun p => p.2) (d.zip w)).1.map Prod.fst,
         (wmSort (fun p : ℚ × ℚ => p.1) (fun p => p.2) (d.zip w)).1.map Prod.snd,
         (wmSort (fun p : ℚ × ℚ => p.1) (fun p => p.2) (d.zip w)).2) := by
      simp only [weighted_merge_sort_mut, if_pos h]
    refine ⟨(wmSort (fun p : ℚ × ℚ => p.1) (fun p => p.2) (d.zip w)).2,
      (wmSort (fun p : ℚ × ℚ => p.1) (fun p => p.2) (d.zip w)).1.map Prod.fst,
      (wmSort (fun p : ℚ × ℚ => p.1) (fun p => p.2) (d.zip w)).1.map Prod.snd, ?_⟩
    simp only [binding.statistics_weighted_merge_sort_mut, hcore]
  · intro d w h
    have hcore : weighted_merge_sort_mut d w = Except.ok
        ((wmSort (fun p : ℤ × ℚ => p.1) (fun p => p.2) (d.zip w)).1.map Prod.fst,
         (wmSort (fun p : ℤ × ℚ => p.1) (fun p => p.2) (d.zip w)).1.map Prod.snd,
         (wmSort (fun p : ℤ × ℚ => p.1) (fun p => p.2) (d.zip w)).2) := by
      simp only [weighted_merge_sort_mut, if_pos h]
    refine ⟨(wmSort (fun p : ℤ × ℚ => p.1) (fun p => p.2) (d.zip w)).2,
      (wmSort (fun p : ℤ × ℚ => p.1) (fun p => p.2) (d.zip w)).1.map Prod.fst,
      (wmSort (fun p : ℤ × ℚ => p.1) (fun p => p.2) (d.zip w)).1.map Prod.snd, ?_⟩
    simp only [binding.statistics_weighted_merge_sort_mut, hcore]

/-- Closed witness for C10 at concrete inputs of each dtype. -/
theorem dtype_dispatch_witness :
    binding.statistics_weighted_merge_sort_mut
        (binding.PyValue.unsupported otherDtype) [1] =
      (Except.error (binding.PyErr.typeError binding.unsupportedMsg),
        binding.PyValue.unsupported otherDtype, [1]) ∧
    (∃ c d2 w2,
      binding.statistics_weighted_merge_sort_mut
          (binding.PyValue.f64Array [2, 1]) [1, 1] =
        (Except.ok c, binding.PyValue.f64Array d2, w2)) ∧
    (∃ c d2 w2,
      binding.statistics_weighted_merge_sort_mut
          (binding.PyValue.i32Array [2, 1]) [1, 1] =
        (Except.ok c, binding.PyValue.i32Array d2, w2)) :=
  ⟨dtype_dispatch.1 otherDtype [1], dtype_dispatch.2.1 [2, 1] [1, 1] rfl,
    dtype_dispatch.2.2 [2, 1] [1, 1] rfl⟩

/-- C4: a length mismatch between index-aligned inputs is rejected with
`LengthMismatch` before any computation — by the core sort, by the Tau-b
pipeline, and at the binding surface, where the caller's arrays come back
unchanged (no partial mutation is visible). -/
theorem length_mismatch_rejected :
    (∀ data weights : List ℚ, data.length ≠ weights.length →
      weighted_merge_sort_mut data weights = Except.error Err.LengthMismatch) ∧
    (∀ a b w : List ℚ, ¬(a.length = b.length ∧ a.length = w.length) →
      weighted_kendall_tau_b a b w = Except.error Err.LengthMismatch) ∧
    (∀ data weights : List ℚ, data.length ≠ weights.length →
      binding.statistics_weighted_merge_sort_mut
          (binding.PyValue.f64Array data) weights =
        (Except.error (binding.PyErr.arrayError Err.LengthMismatch),
          binding.PyValue.f64Array data, weights)) := by
  refine ⟨?_, ?_, ?_⟩
  · intro d w h
    simp [weighted_merge_sort_mut, h]
  · intro a b w h
    unfold weighted_kendall_tau_b
    rw [if_neg h]
  · intro d w h
    have hcore : weighted_merge_sort_mut d w =
        Except.error Err.LengthMismatch := by
      simp [weighted_merge_sort_mut, h]
    simp only [binding.statistics_weighted_merge_sort_mut, hcore]

/-- Closed witness for C4 at concrete mismatched inputs. -/
theorem length_mismatch_rejected_witness :
    weighted_merge_sort_mut [(1 : ℚ), 2] [(1 : ℚ)] =
      Except.error Err.LengthMismatch ∧
    weighted_kendall_tau_b [1, 2] [1, 2] [1] = Except.error Err.LengthMismatch ∧
    binding.statistics_weighted_merge_sort_mut
        (binding.PyValue.f64Array [1, 2]) [1] =
      (Except.error (binding.PyErr.arrayError Err.LengthMismatch),
        binding.PyValue.f64Array [1, 2], [1]) :=
  ⟨length_mismatch_rejected.1 [1, 2] [1] (by simp),
    length_mismatch_rejected.2.1 [1, 2] [1, 2] [1] (by simp),
    length_mismatch_rejected.2.2 [1, 2] [1] (by simp)⟩

/-! ## Tau-b symmetry and range -/

/-- Equality of the real coefficients represented by two
(numerator, squared-denominator) results: for `0 < P₁` and `0 < P₂`,
`n₁/√P₁ = n₂/√P₂` holds iff the signs agree and `n₁²·P₂ = n₂²·P₁`. -/
def coeffEq (x y : ℚ × ℚ) : Prop :=
  x.1 ^ 2 * y.2 = y.1 ^ 2 * x.2 ∧ (0 ≤ x.1 ↔ 0 ≤ y.1)

/-- C6 counterexample: with a tie in the first variable
(`a = [1,1,2]`, `b = [2,1,3]`, unit weights) the two argument orders give
the distinct, both non-degenerate, coefficients `0/√24` and `4/√24` —
the stable sort by `a` alone counts the `a`-tied pair `(1,2)` vs `(1,1)` as
discordant in one orientation only. -/
theorem tau_symmetry_counterexample :
    weighted_kendall_tau_b [1, 1, 2] [2, 1, 3] [1, 1, 1] = Except.ok (0, 24) ∧
    weighted_kendall_tau_b [2, 1, 3] [1, 1, 2] [1, 1, 1] = Except.ok (4, 24) ∧
    (0 : ℚ) < 24 ∧ ¬coeffEq (0, 24) (4, 24) := by
  refine ⟨?_, ?_, by norm_num, ?_⟩
  · norm_num [weighted_kendall_tau_b, tauNum, tauN0, tauN1, tauN2, tauTj,
      tauD, tauLa, tauLab, zip3, wmSort, loopF, passF, mergeCnt, mergeF,
      tieTerm, runSum, sum, trA, trB, trW, trAB, List.zip, List.zipWith]
  · norm_num [weighted_kendall_tau_b, tauNum, tauN0, tauN1, tauN2, tauTj,
      tauD, tauLa, tauLab, zip3, wmSort, loopF, passF, mergeCnt, mergeF,
      tieTerm, runSum, sum, trA, trB, trW, trAB, List.zip, List.zipWith]
  · intro hc
    have h1 := hc.1
    norm_num [coeffEq] at h1

/-- C6 amended: `weighted_kendall_tau_b` is symmetric in its two data
arguments for every input in which neither variable contains tied values
(the counterexample above shows ties break symmetry). -/
theorem tau_symmetric_of_nodup (a b w : List ℚ) (ha : a.Nodup)
    (hb : b.Nodup) :
    weighted_kendall_tau_b a b w = weighted_kendall_tau_b b a w := by
  unfold weighted_kendall_tau_b
  by_cases hcond : a.length = b.length ∧ a.length = w.length
  · have hcond2 : b.length = a.length ∧ b.length = w.length :=
      ⟨hcond.1.symm, hcond.1.symm.trans hcond.2⟩
    rw [if_pos hcond, if_pos hcond2]
    have h1 := hcond.1
    have h2 := hcond.2
    have h1s : b.length = a.length := h1.symm
    have h2s : b.length = w.length := h1.symm.trans h2
    have e1 : tauN1 a b w = 0 := tauN1_zero h1 h2 ha
    have e1s : tauN1 b a w = 0 := tauN1_zero h1s h2s hb
    have e2 : tauN2 a b w = 0 := tauN2_zero h1 h2 hb
    have e2s : tauN2 b a w = 0 := tauN2_zero h1s h2s ha
    have e3 : tauTj a b w = 0 := tauTj_zero h1 h2 ha
    have e3s : tauTj b a w = 0 := tauTj_zero h1s h2s hb
    have eD : tauD b a w = tauD a b w := by
      rw [tauD_eq h1s h2s hb, tauD_eq h1 h2 ha, zip3_swap a b w, pairSum_map]
      refine congrArg (2 * ·) (pairSum_ext ?_ (zip3 a b w))
      intro p q
      unfold discf swapAB trA trB trW
      exact if_congr (by tauto) rfl rfl
    unfold tauNum
    rw [e1, e1s, e2, e2s, e3, e3s, eD]
  · have hcond2 : ¬(b.length = a.length ∧ b.length = w.length) := fun hc =>
      hcond ⟨hc.1.symm, hc.1.symm.trans hc.2⟩
    rw [if_neg hcond, if_neg hcond2]

/-- Closed witness for the amended C6 at a concrete tie-free input. -/
theorem tau_symmetric_of_nodup_witness :
    weighted_kendall_tau_b [1, 2, 3] [3, 1, 2] [1, 2, 1] =
      weighted_kendall_tau_b [3, 1, 2] [1, 2, 3] [1, 2, 1] :=
  tau_symmetric_of_nodup [1, 2, 3] [3, 1, 2] [1, 2, 1] (by norm_num)
    (by norm_num)

/-- C7 counterexample: with a tie in the first variable and a small third
weight (`a = [1,1,2]`, `b = [2,1,1]`, `w = [1,1,1/100]`) the call succeeds
(both denominator factors are positive) yet the returned coefficient
`(-201/50)/√(101/1250) ≈ -14.1` lies far outside `[-1, 1]`:
its square exceeds `1`, i.e. `r.1² > r.2`. -/
theorem tau_range_counterexample :
    weighted_kendall_tau_b [1, 1, 2] [2, 1, 1] [1, 1, 1/100] =
      Except.ok (-201/50, 101/1250) ∧
    (0 : ℚ) < 101/1250 ∧ (101 : ℚ)/1250 < ((-201 : ℚ)/50) ^ 2 := by
  refine ⟨?_, by norm_num, by norm_num⟩
  norm_num [weighted_kendall_tau_b, tauNum, tauN0, tauN1, tauN2, tauTj,
    tauD, tauLa, tauLab, zip3, wmSort, loopF, passF, mergeCnt, mergeF,
    tieTerm, runSum, sum, trA, trB, trW, trAB, List.zip, List.zipWith]

/-- C7 amended: for every valid input with non-negative weights whose first
variable has no tied values, a successful `weighted_kendall_tau_b` returns a
coefficient in `[-1, 1]`: the squared denominator is positive and the
numerator squared is bounded by it, i.e. `(r.1/√r.2)² ≤ 1`.  (The
counterexample above shows ties in the first variable break the bound.) -/
theorem tau_range_of_nodup (a b w : List ℚ) (ha : a.Nodup)
    (hw : ∀ x ∈ w, 0 ≤ x) (r : ℚ × ℚ)
    (hok : weighted_kendall_tau_b a b w = Except.ok r) :
    0 < r.2 ∧ r.1 ^ 2 ≤ r.2 := by
  unfold weighted_kendall_tau_b at hok
  by_cases hcond : a.length = b.length ∧ a.length = w.length
  case neg =>
    rw [if_neg hcond] at hok
    exact absurd hok (by simp)
  rw [if_pos hcond] at hok
  by_cases hdeg : tauN0 w - tauN1 a b w ≤ 0 ∨ tauN0 w - tauN2 a b w ≤ 0
  case pos =>
    rw [if_pos hdeg] at hok
    exact absurd hok (by simp)
  rw [if_neg hdeg] at hok
  push_neg at hdeg
  obtain ⟨hd1, hd2⟩ := hdeg
  have hr : r = (tauNum a b w,
      (tauN0 w - tauN1 a b w) * (tauN0 w - tauN2 a b w)) := by
    have hok2 := hok
    simp only [Except.ok.injEq] at hok2
    exact hok2.symm
  subst hr
  have h1 := hcond.1
  have h2 := hcond.2
  have hpsne : (zip3 a b w).Pairwise fun p q => trA p ≠ trA q := by
    have hnd : ((zip3 a b w).map trA).Nodup := by
      rw [(zip3_proj a b w h1 h2).1]
      exact ha
    exact List.pairwise_map.mp hnd
  have hwl : ∀ p ∈ zip3 a b w, 0 ≤ trW p := fun p hp =>
    hw _ (mem_zip3_trW hp)
  have hSc : 0 ≤ pairSum conf (zip3 a b w) := by
    refine pairSum_nonneg _ _ fun p hp q hq => ?_
    unfold conf
    split
    · exact mul_nonneg (hwl p hp) (hwl q hq)
    · exact le_rfl
  have hSd : 0 ≤ pairSum discf (zip3 a b w) := by
    refine pairSum_nonneg _ _ fun p hp q hq => ?_
    unfold discf
    split
    · exact mul_nonneg (hwl p hp) (hwl q hq)
    · exact le_rfl
  have hSt : 0 ≤ pairSum tiebf (zip3 a b w) := by
    refine pairSum_nonneg _ _ fun p hp q hq => ?_
    unfold tiebf
    split
    · exact mul_nonneg (hwl p hp) (hwl q hq)
    · exact le_rfl
  have hn0 : tauN0 w = 2 * (pairSum conf (zip3 a b w) +
      pairSum discf (zip3 a b w) + pairSum tiebf (zip3 a b w)) := by
    rw [tauN0_eq h1 h2, wprod_split hpsne]
  have hn1 : tauN1 a b w = 0 := tauN1_zero h1 h2 ha
  have htj : tauTj a b w = 0 := tauTj_zero h1 h2 ha
  have hn2 : tauN2 a b w = 2 * pairSum tiebf (zip3 a b w) :=
    tauN2_eq_two_tiebf a b w
  have hD : tauD a b w = 2 * pairSum discf (zip3 a b w) :=
    tauD_eq h1 h2 ha
  constructor
  · exact mul_pos hd1 hd2
  · dsimp only
    unfold tauNum
    rw [hn1, hn2, htj, hD, hn0]
    nlinarith [hSc, hSd, hSt, mul_nonneg hSc hSd,
      mul_nonneg hSt (add_nonneg hSc hSd),
      sq_nonneg (pairSum conf (zip3 a b w) - pairSum discf (zip3 a b w))]

/-- Closed witness for the amended C7 at a concrete tie-free input. -/
theorem tau_range_of_nodup_witness :
    (0 : ℚ) < 400 ∧ (20 : ℚ) ^ 2 ≤ 400 := by
  have h := tau_range_of_nodup [1, 2, 3, 4, 5] [1, 2, 3, 4, 5] [1, 1, 1, 1, 1]
    (by norm_num) (by norm_num) (20, 400)
    (by norm_num [weighted_kendall_tau_b, tauNum, tauN0, tauN1, tauN2, tauTj,
      tauD, tauLa, tauLab, zip3, wmSort, loopF, passF, mergeCnt, mergeF,
      tieTerm, runSum, sum, trA, trB, trW, trAB, List.zip, List.zipWith])
  exact h

end statistics

end ImgalSpec
